import Mathlib

set_option maxHeartbeats 1000000

/-!
Shallow embedding of the `ep` exchange operator (`exchange.go`) and proofs
about its routing, lifecycle and termination behaviour.

Modelling conventions:
* A dataset is its list of rows; each row is the list of string renderings of
  its columns (the exchange only uses `At(col).Strings()`, `Slice(i, i+1)`,
  `Append` and `NewDataset`).
* Encoders are modelled as trace machines: the list of requests sent so far
  plus a list of per-call results (`none` = success) indexed by call number.
* Decoders are modelled as the stream of raw outcomes they will produce; an
  exhausted stream is a transport EOF.
* The concurrent run loop of `Run` is modelled by its exit cause
  (`LoopExit`); the sequential error plumbing of `Run` (run-once guard, init
  error, deferred `Close`) is translated directly.
-/

namespace Ep

/-- Error values observable in the exchange code: `io.EOF`, `io.ErrClosedPipe`,
the configuration errors built with `fmt.Errorf`, the `context` errors, and
arbitrary transport errors. -/
inductive Err
  | eof
  | closedPipe
  | cannotRunTwice
  | noDistributer
  | canceled
  | deadlineExceeded
  | msg (s : String)
deriving DecidableEq

/-- A dataset: ordered rows, each row the string renderings of its columns. -/
abbrev Dataset := List (List String)

/-- The dynamic (`interface{}`) payload of a `req` envelope: a dataset, an
error value (such as the EOF sentinel `errMsg`), or any other value. -/
inductive Payload
  | dataset (d : Dataset)
  | errVal (m : String)
  | other (tag : String)
deriving DecidableEq

/-- The wire envelope `req` with its single `Payload` field. -/
structure Req where
  payload : Payload
deriving DecidableEq

/-- `io.EOF.Error()`. -/
def ioEOFMsg : String := "EOF"

/-- `isEOFError`: the envelope's payload is an error value whose message
equals `io.EOF.Error()`. -/
def isEOFError (r : Req) : Bool :=
  match r.payload with
  | .errVal m => m == ioEOFMsg
  | _ => false

/-- `exchange.Close`: iterate the closers in order; each non-nil close result
overwrites the error. Modelled over the list of per-closer close results. -/
def closeAll (rs : List (Option Err)) : Option Err :=
  rs.foldl (fun acc r => match r with | some e => some e | none => acc) none

/-- The last non-`none` entry of a list of optional errors. -/
def lastNonNil (rs : List (Option Err)) : Option Err :=
  (rs.filterMap id).getLast?

/-- An encoder modelled as a trace machine: the requests encoded so far and
the prescribed result of each successive `Encode` call (`none` = success;
missing entries are successes). -/
structure EncSt where
  sent : List Req
  behavior : List (Option Err)
deriving DecidableEq

/-- The result of the next `Encode` call on this encoder. -/
def encResult (st : EncSt) : Option Err :=
  st.behavior.getD st.sent.length none

/-- One `Encode` call: record the request, report the prescribed result. -/
def encOne (st : EncSt) (r : Req) : EncSt × Option Err :=
  ({ st with sent := st.sent ++ [r] }, encResult st)

/-- `exchange.encodeAll` body: encode the request on every encoder in order,
overwriting the returned error with each non-nil per-encoder error. -/
def encodeAllGo (r : Req) (err : Option Err) : List EncSt → List EncSt × Option Err
  | [] => ([], err)
  | enc :: rest =>
    let (enc', res) := encOne enc r
    let err' := match res with | some e => some e | none => err
    let (rest', errOut) := encodeAllGo r err' rest
    (enc' :: rest', errOut)

/-- `exchange.encodeAll`: encode on every encoder, last error wins. -/
def encodeAll (encs : List EncSt) (r : Req) : List EncSt × Option Err :=
  encodeAllGo r none encs

/-- The encoder-side state driving `encodeNext`: the encoders and the
round-robin cursor `encsNext` (zero at construction). -/
structure ScatterSt where
  encs : List EncSt
  encsNext : Nat
deriving DecidableEq

/-- `exchange.encodeNext`: fail with `io.ErrClosedPipe` when no encoders
exist; otherwise pre-increment the cursor modulo the encoder count and encode
on the selected encoder, returning the new state, the chosen index and the
encode result. -/
def encodeNext (st : ScatterSt) (r : Req) : Except Err (ScatterSt × Nat × Option Err) :=
  if h : st.encs.length = 0 then .error .closedPipe
  else
    let i := (st.encsNext + 1) % st.encs.length
    have hi : i < st.encs.length := Nat.mod_lt _ (Nat.pos_of_ne_zero h)
    let (enc', res) := encOne (st.encs.get ⟨i, hi⟩) r
    .ok (⟨st.encs.set i enc', i⟩, i, res)

/-- The send loop of a scatter exchange: send each input batch with
`encodeNext`, stopping at the first error (as `Run`'s loop does), and record
the sequence of recipient encoder indices. -/
def runScatter (st : ScatterSt) : List Req → ScatterSt × List Nat × Option Err
  | [] => (st, [], none)
  | r :: rest =>
    match encodeNext st r with
    | .error e => (st, [], some e)
    | .ok (st', i, res) =>
      match res with
      | some e => (st', [i], some e)
      | none =>
        let (st'', is, er) := runScatter st' rest
        (st'', i :: is, er)

/-- Concrete encoder list for evaluating scatter: three always-succeeding
encoders. -/
def w2encs : List EncSt := [⟨[], []⟩, ⟨[], []⟩, ⟨[], []⟩]

/-- Concrete input batches for evaluating scatter: four one-row datasets. -/
def w2reqs : List Req :=
  [⟨.dataset [["x"]]⟩, ⟨.dataset [["y"]]⟩, ⟨.dataset [["z"]]⟩, ⟨.dataset [["w"]]⟩]

/-- Encoder/decoder endpoints as built by `init`: the local short-circuit or
a remote stream identified by its node address. -/
inductive Endpoint
  | sc
  | remote (node : String)
deriving DecidableEq

/-- Read an `encsByKey`-style map (assoc list keyed by node address). -/
def lookupK (k : String) : List (String × Endpoint) → Option Endpoint
  | [] => none
  | (k', v) :: rest => if k' = k then some v else lookupK k rest

/-- Go map assignment `m[k] = v` on an assoc list keyed by node address. -/
def setAssoc (m : List (String × Endpoint)) (k : String) (v : Endpoint) :
    List (String × Endpoint) :=
  match m with
  | [] => [(k, v)]
  | (k', v') :: rest => if k' = k then (k, v) :: rest else (k', v') :: setAssoc rest k v

/-- Read a `dataByEncoder`-style map (assoc list keyed by encoder). -/
def lookupG (e : Endpoint) : List (Endpoint × Dataset) → Option Dataset
  | [] => none
  | (e', d) :: rest => if e' = e then some d else lookupG e rest

/-- Go map assignment `dataByEncoder[enc] = d.Append(row)` where `d` is the
existing pending dataset (or `NewDataset()` for a fresh key). -/
def addRow (groups : List (Endpoint × Dataset)) (e : Endpoint) (row : Dataset) :
    List (Endpoint × Dataset) :=
  match groups with
  | [] => [(e, row)]
  | (e', d) :: rest =>
    if e' = e then (e', d ++ row) :: rest else (e', d) :: addRow rest e row

/-- `exchange.getPartitionEncoder`: hash-ring lookup of the key, then
encoders-by-address lookup of the resulting endpoint. -/
def getPartitionEncoder (ringGet : String → Except String String)
    (encsByKey : List (String × Endpoint)) (key : String) : Except Err Endpoint :=
  match ringGet key with
  | .error s => .error (.msg ("cannot find a target node: " ++ s))
  | .ok endpoint =>
    match lookupK endpoint encsByKey with
    | none => .error (.msg "no matching node found")
    | some enc => .ok enc

/-- Does the routing function succeed on this key? -/
def routeOkB (route : String → Except Err Endpoint) (k : String) : Bool :=
  match route k with
  | .ok _ => true
  | .error _ => false

/-- Does this key route to endpoint `e`? -/
def routesTo (route : String → Except Err Endpoint) (k : String) (e : Endpoint) : Bool :=
  match route k with
  | .ok e' => decide (e' = e)
  | .error _ => false

/-- The key of row `i` (`ids[i] = data.At(col).Strings()[i]`) paired with the
single-row slice `data.Slice(i, i+1)`, for every row in input order. -/
def keyedRows (col : Nat) (data : Dataset) : List (String × Dataset) :=
  data.map (fun row => (row.getD col "", [row]))

/-- The grouping loop of `encodePartition`: route each key, abort on a
routing error, otherwise append the single-row slice to the key's pending
dataset. -/
def groupRows (route : String → Except Err Endpoint) :
    List (String × Dataset) → List (Endpoint × Dataset) →
    Except Err (List (Endpoint × Dataset))
  | [], acc => .ok acc
  | (k, row) :: rest, acc =>
    match route k with
    | .error e => .error e
    | .ok enc => groupRows route rest (addRow acc enc row)

/-- The rows of `krs` routed to endpoint `e`, concatenated in input order. -/
def specGroup (route : String → Except Err Endpoint) (e : Endpoint)
    (krs : List (String × Dataset)) : Dataset :=
  ((krs.filter (fun kr => routesTo route kr.1 e)).map Prod.snd).flatten

/-- Helper for stating the grouping invariant: extend an optional pending
dataset with the additional rows routed to the same endpoint. -/
def extendGroup (o : Option Dataset) (g : Dataset) : Option Dataset :=
  match o with
  | some d => some (d ++ g)
  | none => if g.isEmpty then none else some g

/-- The keys of a grouped assoc list. -/
def keysOf (g : List (Endpoint × Dataset)) : List Endpoint :=
  g.map Prod.fst

/-- The encode loop of `encodePartition` over the grouped datasets: abort on
the first encode error; also return the trace of encode attempts. -/
def sendGroups (encRes : Endpoint → Dataset → Option Err) :
    List (Endpoint × Dataset) → Option Err × List (Endpoint × Dataset)
  | [] => (none, [])
  | (e, d) :: rest =>
    match encRes e d with
    | some err => (some err, [(e, d)])
    | none =>
      let (r, t) := sendGroups encRes rest
      (r, (e, d) :: t)

/-- `exchange.encodePartition`: reject non-dataset payloads, group the rows
by their routed encoder, then encode each pending dataset; the second
component is the trace of encode attempts `(encoder, dataset)`. -/
def encodePartition (route : String → Except Err Endpoint)
    (encRes : Endpoint → Dataset → Option Err) (col : Nat) (p : Payload) :
    Option Err × List (Endpoint × Dataset) :=
  match p with
  | .dataset data =>
    match groupRows route (keyedRows col data) [] with
    | .error e => (some e, [])
    | .ok groups => sendGroups encRes groups
  | _ => (some (.msg "encodePartition called without a dataset"), [])

/-- Concrete hash-ring lookup for evaluating partition routing. -/
def w3ring : String → Except String String := fun k =>
  if k = "k1" then .ok "a" else if k = "k2" then .ok "b" else .error "nothing"

/-- Concrete encoders-by-address map for evaluating partition routing. -/
def w3map : List (String × Endpoint) := [("a", .sc), ("b", .remote "b")]

/-- Concrete dataset whose keys all route. -/
def w3data : Dataset := [["k1", "u"], ["k2", "v"], ["k1", "w"]]

/-- Concrete dataset with an unroutable key. -/
def w3badData : Dataset := [["k3", "z"]]

/-- A raw decode outcome produced by the underlying codec: a decoded envelope
or a transport error (possibly `io.EOF`). -/
inductive RawOutcome
  | ok (r : Req)
  | fail (e : Err)
deriving DecidableEq

/-- `dbgDecoder.Decode` (the short-circuit decoder behaves identically): a
successfully decoded envelope whose payload is the EOF sentinel is translated
into the canonical `io.EOF` signal. -/
def dbgDecode : RawOutcome → RawOutcome
  | .ok r => if isEOFError r then .fail .eof else .ok r
  | .fail e => .fail e

/-- One decode call on a decoder modelled as its stream of raw outcomes: an
exhausted stream yields the transport EOF, otherwise the head outcome is
consumed and passed through the EOF-sentinel translation. -/
def effDecode : List RawOutcome → RawOutcome × List RawOutcome
  | [] => (.fail .eof, [])
  | o :: rest => (dbgDecode o, rest)

/-- The outcome of `exchange.decodeNext`: a dataset, a non-EOF error, the
canonical EOF, or a runtime panic from the `req.Payload.(Dataset)` type
assertion. -/
inductive DNResult
  | ok (d : Dataset)
  | err (e : Err)
  | eof
  | panic
deriving DecidableEq

/-- The unconditional type assertion `req.Payload.(Dataset)`. -/
def assertDataset : Payload → DNResult
  | .dataset d => .ok d
  | _ => .panic

/-- `exchange.decodeNext`: return EOF when no decoders remain; otherwise
pre-increment the decoder cursor modulo the decoder count, decode once on the
selected decoder; on clean EOF remove that decoder and retry; on any other
error return it immediately; on success commit the cursor and type-assert the
payload. Returns the result, the surviving decoder streams and the cursor. -/
def decodeNext (decs : List (List RawOutcome)) (next : Nat) :
    DNResult × List (List RawOutcome) × Nat :=
  if h : decs.length = 0 then (.eof, decs, next)
  else
    let i := (next + 1) % decs.length
    have hi : i < decs.length := Nat.mod_lt _ (Nat.pos_of_ne_zero h)
    match effDecode (decs.get ⟨i, hi⟩) with
    | (.fail .eof, _) => decodeNext (decs.eraseIdx i) next
    | (.fail e, rest) => (.err e, decs.set i rest, next)
    | (.ok r, rest) => (assertDataset r.payload, decs.set i rest, i)
termination_by decs.length
decreasing_by
  simp only [List.length_eraseIdx, hi, if_pos]
  omega

/-- The four routing disciplines of an exchange. -/
inductive ExchangeType
  | gather
  | scatter
  | broadcast
  | partitionEx
deriving DecidableEq

/-- The persistent fields of an `exchange` Runner that drive `Run`'s
lifecycle. -/
structure Exchange where
  uid : String
  ty : ExchangeType
  partitionCol : Nat
  inited : Bool
deriving DecidableEq

/-- The collaborators `Run`/`init` read from the context: the distributer
(modelled by the per-node result of its `Connect`, `none` = success) and the
cluster view. A missing distributer is modelled by `dist = none`. -/
structure RunCtx where
  dist : Option (String → Option Err)
  allNodes : List String
  thisNode : String
  masterNode : String

/-- The state built by `exchange.init`: closers, encoders, decoders, the hash
ring contents and the encoders-by-address map, plus whether the local
short-circuit was created. -/
structure InitSt where
  conns : List Endpoint
  encs : List Endpoint
  decs : List Endpoint
  ring : List String
  encsByKey : List (String × Endpoint)
  scCreated : Bool
deriving DecidableEq

/-- First loop of `init` over the target nodes: create the short-circuit for
the local node, dial every other target; returns the state and the map of
dialled target nodes (`connsMap`). -/
def initLoop1 (connect : String → Option Err) (thisNode : String) :
    List String → InitSt → List String → Except Err (InitSt × List String)
  | [], st, connsMap => .ok (st, connsMap)
  | node :: rest, st, connsMap =>
    if node = thisNode then
      initLoop1 connect thisNode rest
        { st with conns := st.conns ++ [.sc], encs := st.encs ++ [.sc],
                  ring := st.ring ++ [node],
                  encsByKey := setAssoc st.encsByKey node .sc,
                  scCreated := true } connsMap
    else
      match connect node with
      | some e => .error e
      | none =>
        initLoop1 connect thisNode rest
          { st with conns := st.conns ++ [.remote node],
                    encs := st.encs ++ [.remote node],
                    ring := st.ring ++ [node],
                    encsByKey := setAssoc st.encsByKey node (.remote node) }
          (connsMap ++ [node])

/-- Second loop of `init` over all nodes (run only when the short-circuit was
created): the local node decodes from the short-circuit, an already-dialled
target connection is reused, any other node is dialled fresh. -/
def initLoop2 (connect : String → Option Err) (thisNode : String) :
    List String → List String → InitSt → Except Err InitSt
  | [], _, st => .ok st
  | n :: rest, connsMap, st =>
    if n = thisNode then
      initLoop2 connect thisNode rest connsMap { st with decs := st.decs ++ [.sc] }
    else if n ∈ connsMap then
      initLoop2 connect thisNode rest connsMap { st with decs := st.decs ++ [.remote n] }
    else
      match connect n with
      | some e => .error e
      | none =>
        initLoop2 connect thisNode rest connsMap
          { st with conns := st.conns ++ [.remote n], decs := st.decs ++ [.remote n] }

/-- `exchange.init`: fail without a distributer; the destination set is the
master node alone for gather and all nodes otherwise; run the two connection
loops. -/
def initEx (ctx : RunCtx) (ty : ExchangeType) : Except Err InitSt :=
  match ctx.dist with
  | none => .error .noDistributer
  | some connect =>
    let targets := if ty = .gather then [ctx.masterNode] else ctx.allNodes
    match initLoop1 connect ctx.thisNode targets ⟨[], [], [], [], [], false⟩ [] with
    | .error e => .error e
    | .ok (st, connsMap) =>
      if st.scCreated then initLoop2 connect ctx.thisNode ctx.allNodes connsMap st
      else .ok st

/-- The per-closer results of `Close` over the recorded closer list:
`shortCircuit.Close` unconditionally returns nil, while the close result of a
remote stream (`net.Conn`, an external collaborator) is supplied by the
environment. -/
def closeResults (conns : List Endpoint) (connClose : String → Option Err) :
    List (Option Err) :=
  conns.map (fun e =>
    match e with
    | .sc => none
    | .remote n => connClose n)

/-- Did `init` succeed? -/
def exInitOk (x : Except Err InitSt) : Bool :=
  match x with
  | .ok _ => true
  | .error _ => false

/-- The exit cause of `Run`'s foreground select loop: clean completion (send
and receive both done), a send error, a receive error, or the context's done
signal carrying `ctx.Err()`. -/
inductive LoopExit
  | clean
  | sendErr (e : Err)
  | recvErr (e : Err)
  | ctxDone (e : Err)
deriving DecidableEq

/-- The error value held in `err` when the loop exits: nil for clean
completion and for context cancellation (`return nil`), the error otherwise. -/
def loopErr : LoopExit → Option Err
  | .clean => none
  | .sendErr e => some e
  | .recvErr e => some e
  | .ctxDone e => if e = .canceled then none else some e

/-- The observable outcome of a `Run` call: the updated receiver, the
returned error, and whether initialization was ever attempted. -/
structure RunResult where
  ex : Exchange
  err : Option Err
  didInit : Bool
deriving DecidableEq

/-- `exchange.Run`: reject a second run before doing anything else; otherwise
mark the instance as run, initialize, drive the loops (abstracted by their
exit cause), and let the deferred `Close` result stand in only when no
earlier error occurred. `closeErr` is the result of the deferred
`ex.Close()`. -/
def Run (ex : Exchange) (ctx : RunCtx) (exit : LoopExit) (closeErr : Option Err) :
    RunResult :=
  if ex.inited then ⟨ex, some .cannotRunTwice, false⟩
  else
    let ex' := { ex with inited := true }
    match initEx ctx ex.ty with
    | .error e => ⟨ex', some e, true⟩
    | .ok _ =>
      match loopErr exit with
      | some e => ⟨ex', some e, true⟩
      | none => ⟨ex', closeErr, true⟩

/-! ### Helper lemmas -/

theorem lastCons {α : Type} (x : α) (l : List α) :
    (x :: l).getLast? = some (l.getLast?.getD x) := by
  induction l generalizing x with
  | nil => simp
  | cons y ys ih =>
    rw [List.getLast?_cons_cons, ih y]
    simp

theorem lastNonNil_cons (x : Option Err) (l : List (Option Err)) :
    lastNonNil (x :: l)
      = match lastNonNil l with | some e => some e | none => x := by
  cases x with
  | none =>
    simp only [lastNonNil, List.filterMap_cons, id]
    cases h : (l.filterMap id).getLast? <;> rfl
  | some e0 =>
    simp only [lastNonNil, List.filterMap_cons, id]
    rw [lastCons]
    cases h : (l.filterMap id).getLast? <;> simp [h]

theorem closeFold_eq (l : List (Option Err)) : ∀ a : Option Err,
    l.foldl (fun acc r => match r with | some e => some e | none => acc) a
      = match lastNonNil l with | some e => some e | none => a := by
  induction l with
  | nil => intro a; rfl
  | cons x rest ih =>
    intro a
    rw [List.foldl_cons, lastNonNil_cons]
    cases x with
    | none =>
      rw [ih a]
      cases h : lastNonNil rest <;> rfl
    | some e0 =>
      rw [ih (some e0)]
      cases h : lastNonNil rest <;> rfl

theorem closeAll_lastNonNil (rs : List (Option Err)) : closeAll rs = lastNonNil rs := by
  unfold closeAll
  rw [closeFold_eq]
  cases h : lastNonNil rs <;> rfl

theorem encodeAllGo_spec (r : Req) : ∀ (encs : List EncSt) (err : Option Err),
    encodeAllGo r err encs
      = (encs.map (fun enc => { enc with sent := enc.sent ++ [r] }),
         match lastNonNil (encs.map encResult) with | some e => some e | none => err) := by
  intro encs
  induction encs with
  | nil => intro err; simp [encodeAllGo, lastNonNil]
  | cons enc rest ih =>
    intro err
    simp only [encodeAllGo, encOne]
    rw [ih]
    simp only [List.map_cons]
    rw [lastNonNil_cons]
    cases hr : encResult enc <;> cases h : lastNonNil (rest.map encResult) <;> rfl

theorem decodeNext_nil (k : Nat) : decodeNext [] k = (.eof, [], k) := by
  unfold decodeNext
  rfl

theorem initLoop1_spec (connect : String → Option Err) (thisNode : String)
    (hconn : ∀ n, connect n = none) :
    ∀ (targets : List String) (st : InitSt) (cm : List String),
    ∃ st' cm', initLoop1 connect thisNode targets st cm = .ok (st', cm') ∧
      st'.ring = st.ring ++ targets ∧
      st'.scCreated = (st.scCreated || decide (thisNode ∈ targets)) ∧
      st'.decs = st.decs := by
  intro targets
  induction targets with
  | nil =>
    intro st cm
    exact ⟨st, cm, rfl, by simp, by simp, rfl⟩
  | cons node rest ih =>
    intro st cm
    by_cases hn : node = thisNode
    · unfold initLoop1
      rw [if_pos hn]
      obtain ⟨st', cm', heq, hring, hsc, hdecs⟩ := ih _ cm
      refine ⟨st', cm', heq, ?_, ?_, hdecs⟩
      · rw [hring]; simp
      · rw [hsc]; simp [List.mem_cons, hn.symm]
    · unfold initLoop1
      rw [if_neg hn, hconn node]
      obtain ⟨st', cm', heq, hring, hsc, hdecs⟩ := ih _ (cm ++ [node])
      refine ⟨st', cm', heq, ?_, ?_, hdecs⟩
      · rw [hring]; simp
      · have hn' : ¬(thisNode = node) := fun hh => hn hh.symm
        rw [hsc]; simp [List.mem_cons, hn']

theorem initLoop2_spec (connect : String → Option Err) (thisNode : String)
    (hconn : ∀ n, connect n = none) :
    ∀ (nodes : List String) (cm : List String) (st : InitSt),
    ∃ st', initLoop2 connect thisNode nodes cm st = .ok st' ∧
      st'.decs.length = st.decs.length + nodes.length ∧
      st'.ring = st.ring ∧ st'.scCreated = st.scCreated := by
  intro nodes
  induction nodes with
  | nil =>
    intro cm st
    exact ⟨st, rfl, by simp, rfl, rfl⟩
  | cons n rest ih =>
    intro cm st
    unfold initLoop2
    by_cases h1 : n = thisNode
    · rw [if_pos h1]
      obtain ⟨st', heq, hlen, hring, hsc⟩ := ih cm _
      refine ⟨st', heq, ?_, hring, hsc⟩
      simp at hlen ⊢
      omega
    · rw [if_neg h1]
      by_cases h2 : n ∈ cm
      · rw [if_pos h2]
        obtain ⟨st', heq, hlen, hring, hsc⟩ := ih cm _
        refine ⟨st', heq, ?_, hring, hsc⟩
        simp at hlen ⊢
        omega
      · rw [if_neg h2, hconn n]
        obtain ⟨st', heq, hlen, hring, hsc⟩ := ih cm _
        refine ⟨st', heq, ?_, hring, hsc⟩
        simp at hlen ⊢
        omega

theorem getD_none : ∀ (l : List (Option Err)) (n : Nat),
    (∀ x ∈ l, x = none) → l.getD n none = none := by
  intro l
  induction l with
  | nil => intro n _; simp [List.getD]
  | cons x xs ih =>
    intro n h
    cases n with
    | zero => simpa using h x (by simp)
    | succ m =>
      simp only [List.getD_cons_succ]
      exact ih m (fun y hy => h y (by simp [hy]))

theorem count_range_mod (N k : Nat) (hN : 0 < N) (hk : k < N) :
    ∀ B, ((List.range B).map (fun j => (j + 1) % N)).count k
      = B / N + (if 1 ≤ k ∧ k ≤ B % N then 1 else 0) := by
  intro B
  induction B with
  | zero =>
    simp only [List.range_zero, List.map_nil, List.count_nil, Nat.zero_div, Nat.zero_mod]
    split_ifs <;> omega
  | succ B ih =>
    rw [List.range_succ, List.map_append, List.count_append, ih]
    simp only [List.map_cons, List.map_nil, List.count_cons, List.count_nil, beq_iff_eq]
    have hdm : N * (B / N) + B % N = B := Nat.div_add_mod B N
    have hm : B % N < N := Nat.mod_lt B hN
    by_cases hc : B % N + 1 = N
    · have hB1 : N * (B / N + 1) = B + 1 := by
        rw [Nat.mul_add, Nat.mul_one]; omega
      have hdiv : (B + 1) / N = B / N + 1 := by
        rw [← hB1, Nat.mul_div_cancel_left _ hN]
      have hmod : (B + 1) % N = 0 := by
        rw [← hB1]; exact Nat.mul_mod_right N _
      rw [hdiv, hmod]
      split_ifs <;> omega
    · have hlt : B % N + 1 < N := by omega
      have hB1 : N * (B / N) + (B % N + 1) = B + 1 := by omega
      have hdiv : (B + 1) / N = B / N := by
        rw [← hB1, Nat.mul_add_div hN, Nat.div_eq_of_lt hlt, Nat.add_zero]
      have hmod : (B + 1) % N = B % N + 1 := by
        rw [← hB1, Nat.mul_add_mod, Nat.mod_eq_of_lt hlt]
      rw [hdiv, hmod]
      split_ifs <;> omega

theorem count_floor_ceil (N k B : Nat) (hN : 0 < N) (hk : k < N) :
    ((List.range B).map (fun j => (j + 1) % N)).count k = B / N ∨
    ((List.range B).map (fun j => (j + 1) % N)).count k = (B + (N - 1)) / N := by
  rw [count_range_mod N k hN hk B]
  by_cases h : 1 ≤ k ∧ k ≤ B % N
  · right
    rw [if_pos h]
    have hdm : N * (B / N) + B % N = B := Nat.div_add_mod B N
    have hm : B % N < N := Nat.mod_lt B hN
    have h1 : 1 ≤ B % N := le_trans h.1 h.2
    have hB : N * (B / N + 1) + (B % N - 1) = B + (N - 1) := by
      rw [Nat.mul_add, Nat.mul_one]; omega
    have hd2 : (B + (N - 1)) / N = B / N + 1 := by
      rw [← hB, Nat.mul_add_div hN,
        Nat.div_eq_of_lt (show B % N - 1 < N by omega), Nat.add_zero]
    omega
  · left
    rw [if_neg h]
    omega

theorem runScatter_spec : ∀ (reqs : List Req) (encs : List EncSt) (c : Nat),
    encs ≠ [] → (∀ enc ∈ encs, ∀ x ∈ enc.behavior, x = none) →
    (runScatter ⟨encs, c⟩ reqs).2.1
        = (List.range reqs.length).map (fun j => (c + j + 1) % encs.length) ∧
    (runScatter ⟨encs, c⟩ reqs).2.2 = none := by
  intro reqs
  induction reqs with
  | nil => intro encs c _ _; simp [runScatter]
  | cons r rest ih =>
    intro encs c hne hall
    have hlen : encs.length ≠ 0 := fun hh => hne (List.length_eq_zero.mp hh)
    have hpos : 0 < encs.length := Nat.pos_of_ne_zero hlen
    have hi : (c + 1) % encs.length < encs.length := Nat.mod_lt _ hpos
    have hres : encResult (encs.get ⟨(c + 1) % encs.length, hi⟩) = none :=
      getD_none _ _ (hall _ (List.get_mem encs _ hi))
    have hne' : ∀ enc' : EncSt, encs.set ((c + 1) % encs.length) enc' ≠ [] := by
      intro enc' hh
      apply hlen
      have := congrArg List.length hh
      simpa [List.length_set] using this
    have hall' : ∀ enc' : EncSt,
        (∀ x ∈ enc'.behavior, x = none) →
        ∀ enc ∈ encs.set ((c + 1) % encs.length) enc', ∀ x ∈ enc.behavior, x = none := by
      intro enc' henc' enc hmem x hx
      rcases List.mem_or_eq_of_mem_set hmem with hin | heq
      · exact hall enc hin x hx
      · subst heq; exact henc' x hx
    simp only [runScatter, encodeNext]
    rw [dif_neg hlen]
    simp only [encOne]
    rw [hres]
    obtain ⟨ih1, ih2⟩ := ih
      (encs.set ((c + 1) % encs.length)
        { encs.get ⟨(c + 1) % encs.length, hi⟩ with
            sent := (encs.get ⟨(c + 1) % encs.length, hi⟩).sent ++ [r] })
      ((c + 1) % encs.length)
      (hne' _)
      (hall' _ (fun x hx => hall _ (List.get_mem encs _ hi) x hx))
    simp only [List.length_set] at ih1
    rw [ih1, ih2]
    constructor
    · show ((c + 1) % encs.length) ::
          List.map (fun j => ((c + 1) % encs.length + j + 1) % encs.length)
            (List.range rest.length)
        = List.map (fun j => (c + j + 1) % encs.length)
            (List.range ((r :: rest).length))
      simp only [List.length_cons]
      rw [List.range_succ_eq_map, List.map_cons, List.map_map]
      congr 1
      apply List.map_congr_left
      intro j _
      show ((c + 1) % encs.length + j + 1) % encs.length
        = (c + (j + 1) + 1) % encs.length
      rw [Nat.add_assoc ((c + 1) % encs.length) j 1, Nat.mod_add_mod]
      congr 1
      omega
    · rfl

theorem lookupG_addRow (e enc : Endpoint) (row : Dataset) :
    ∀ acc : List (Endpoint × Dataset),
    lookupG e (addRow acc enc row)
      = if enc = e then some ((lookupG e acc).getD [] ++ row) else lookupG e acc := by
  intro acc
  induction acc with
  | nil =>
    by_cases h : enc = e
    · subst h; simp [addRow, lookupG]
    · simp [addRow, lookupG, h]
  | cons p rest ih =>
    obtain ⟨e', d⟩ := p
    by_cases h1 : e' = enc
    · subst h1
      by_cases h2 : e' = e
      · subst h2; simp [addRow, lookupG]
      · simp [addRow, lookupG, h2]
    · by_cases h2 : e' = e
      · subst h2
        have henc : ¬(enc = e') := fun hh => h1 hh.symm
        simp [addRow, lookupG, h1, henc]
      · simp [addRow, lookupG, h1, h2, ih]

theorem specGroup_cons (route : String → Except Err Endpoint) (e : Endpoint)
    (k : String) (row : Dataset) (rest : List (String × Dataset)) :
    specGroup route e ((k, row) :: rest)
      = if routesTo route k e then row ++ specGroup route e rest
        else specGroup route e rest := by
  cases hr : routesTo route k e <;>
    simp [specGroup, List.filter_cons, hr]

theorem groupRows_lookup (route : String → Except Err Endpoint) :
    ∀ (krs : List (String × Dataset)),
    (∀ kr ∈ krs, routeOkB route kr.1 = true) →
    (∀ kr ∈ krs, kr.2 ≠ ([] : Dataset)) →
    ∀ acc, ∃ g, groupRows route krs acc = .ok g ∧
      ∀ e, lookupG e g = extendGroup (lookupG e acc) (specGroup route e krs) := by
  intro krs
  induction krs with
  | nil =>
    intro _ _ acc
    refine ⟨acc, rfl, ?_⟩
    intro e
    cases h : lookupG e acc <;> simp [extendGroup, specGroup]
  | cons kr rest ih =>
    obtain ⟨k, row⟩ := kr
    intro hok hrow acc
    have hk := hok (k, row) (by simp)
    have hrowne : row ≠ ([] : Dataset) := hrow (k, row) (by simp)
    cases hr : route k with
    | error e0 => simp [routeOkB, hr] at hk
    | ok enc =>
      obtain ⟨g, hg, hlook⟩ := ih (fun kr h => hok kr (by simp [h]))
        (fun kr h => hrow kr (by simp [h])) (addRow acc enc row)
      refine ⟨g, ?_, ?_⟩
      · simp only [groupRows, hr]; exact hg
      · intro e
        rw [hlook e, lookupG_addRow, specGroup_cons]
        have hroutes : routesTo route k e = decide (enc = e) := by
          simp [routesTo, hr]
        rw [hroutes]
        by_cases he : enc = e
        · subst he
          simp only [decide_eq_true_eq, eq_self_iff_true, if_true]
          cases hacc : lookupG enc acc with
          | none =>
            have hemp : (row ++ specGroup route enc rest).isEmpty = false := by
              cases row with
              | nil => exact absurd rfl hrowne
              | cons a as => rfl
            simp [extendGroup, hemp]
          | some d =>
            simp [extendGroup, List.append_assoc]
        · simp [he]

theorem addRow_keysOf (enc : Endpoint) (row : Dataset) :
    ∀ acc, keysOf (addRow acc enc row)
      = if enc ∈ keysOf acc then keysOf acc else keysOf acc ++ [enc] := by
  intro acc
  induction acc with
  | nil => simp [addRow, keysOf]
  | cons p rest ih =>
    obtain ⟨e', d⟩ := p
    by_cases h : e' = enc
    · subst h
      simp [addRow, keysOf, List.mem_cons]
    · have h' : ¬(enc = e') := fun hh => h hh.symm
      have haddr : addRow ((e', d) :: rest) enc row = (e', d) :: addRow rest enc row := by
        simp [addRow, h]
      have hk1 : keysOf ((e', d) :: addRow rest enc row)
          = e' :: keysOf (addRow rest enc row) := rfl
      have hk2 : keysOf ((e', d) :: rest) = e' :: keysOf rest := rfl
      rw [haddr, hk1, hk2, ih]
      by_cases h2 : enc ∈ keysOf rest
      · rw [if_pos h2, if_pos (List.mem_cons.mpr (Or.inr h2))]
      · have hnm : enc ∉ e' :: keysOf rest := by
          intro hmem
          rcases List.mem_cons.mp hmem with hq | hq
          · exact h' hq
          · exact h2 hq
        rw [if_neg h2, if_neg hnm]
        rfl

theorem groupRows_keys_nodup (route : String → Except Err Endpoint) :
    ∀ (krs : List (String × Dataset)) (acc : List (Endpoint × Dataset))
      (g : List (Endpoint × Dataset)),
    (keysOf acc).Nodup → groupRows route krs acc = .ok g → (keysOf g).Nodup := by
  intro krs
  induction krs with
  | nil =>
    intro acc g hn hg
    simp only [groupRows] at hg
    injection hg with h
    subst h
    exact hn
  | cons kr rest ih =>
    obtain ⟨k, row⟩ := kr
    intro acc g hn hg
    simp only [groupRows] at hg
    cases hr : route k with
    | error e0 => rw [hr] at hg; cases hg
    | ok enc =>
      rw [hr] at hg
      apply ih (addRow acc enc row) g ?_ hg
      rw [addRow_keysOf]
      by_cases h2 : enc ∈ keysOf acc
      · rw [if_pos h2]; exact hn
      · rw [if_neg h2]
        rw [List.nodup_append]
        refine ⟨hn, List.nodup_singleton _, ?_⟩
        intro x hx hx2
        rw [List.mem_singleton] at hx2
        subst hx2
        exact h2 hx

theorem sendGroups_ok (encRes : Endpoint → Dataset → Option Err)
    (h : ∀ e d, encRes e d = none) :
    ∀ gs, sendGroups encRes gs = (none, gs) := by
  intro gs
  induction gs with
  | nil => rfl
  | cons p rest ih =>
    obtain ⟨e, d⟩ := p
    simp [sendGroups, h, ih]

theorem groupRows_err (route : String → Except Err Endpoint) :
    ∀ (krs : List (String × Dataset)) (acc : List (Endpoint × Dataset)),
    (∃ kr ∈ krs, routeOkB route kr.1 = false) →
    ∃ err, groupRows route krs acc = .error err := by
  intro krs
  induction krs with
  | nil =>
    intro acc h
    obtain ⟨kr, hmem, _⟩ := h
    simp at hmem
  | cons kr0 rest ih =>
    obtain ⟨k, row⟩ := kr0
    intro acc h
    cases hr : route k with
    | error e0 => exact ⟨e0, by simp [groupRows, hr]⟩
    | ok enc =>
      obtain ⟨kr, hmem, hbad⟩ := h
      rcases List.mem_cons.mp hmem with heq | hmem'
      · subst heq
        simp [routeOkB, hr] at hbad
      · obtain ⟨err, herr⟩ := ih (addRow acc enc row) ⟨kr, hmem', hbad⟩
        exact ⟨err, by simp [groupRows, hr, herr]⟩

theorem decodeNext_eof_step (decs : List (List RawOutcome)) (next : Nat)
    (s : List RawOutcome)
    (hget : decs.get? ((next + 1) % decs.length) = some s)
    (heof : (effDecode s).1 = .fail .eof) :
    decodeNext decs next
      = decodeNext (decs.eraseIdx ((next + 1) % decs.length)) next := by
  obtain ⟨hi, hg⟩ := List.get?_eq_some.mp hget
  have hlen : decs.length ≠ 0 := by omega
  conv_lhs => rw [decodeNext]
  rw [dif_neg hlen]
  simp only [hg]
  rcases hs : effDecode s with ⟨o, rest0⟩
  rw [hs] at heof
  simp only at heof
  subst heof
  rfl

theorem decodeNext_err_step (decs : List (List RawOutcome)) (next : Nat)
    (s : List RawOutcome) (e : Err) (rest : List RawOutcome)
    (hget : decs.get? ((next + 1) % decs.length) = some s)
    (heff : effDecode s = (.fail e, rest)) (hne : e ≠ .eof) :
    decodeNext decs next
      = (.err e, decs.set ((next + 1) % decs.length) rest, next) := by
  obtain ⟨hi, hg⟩ := List.get?_eq_some.mp hget
  have hlen : decs.length ≠ 0 := by omega
  conv_lhs => rw [decodeNext]
  rw [dif_neg hlen]
  simp only [hg, heff]

theorem decodeNext_ok_step (decs : List (List RawOutcome)) (next : Nat)
    (s : List RawOutcome) (r : Req) (rest : List RawOutcome)
    (hget : decs.get? ((next + 1) % decs.length) = some s)
    (heff : effDecode s = (.ok r, rest)) :
    decodeNext decs next
      = (assertDataset r.payload, decs.set ((next + 1) % decs.length) rest,
         (next + 1) % decs.length) := by
  obtain ⟨hi, hg⟩ := List.get?_eq_some.mp hget
  have hlen : decs.length ≠ 0 := by omega
  conv_lhs => rw [decodeNext]
  rw [dif_neg hlen]
  simp only [hg, heff]

theorem decodeNext_eof_empty :
    ∀ (n : Nat) (decs : List (List RawOutcome)), decs.length = n →
    ∀ next, (decodeNext decs next).1 = .eof → (decodeNext decs next).2.1 = [] := by
  intro n
  induction n using Nat.strong_induction_on with
  | _ n ih =>
    intro decs hlen next h
    by_cases hz : decs.length = 0
    · obtain rfl := List.length_eq_zero.mp hz
      rw [decodeNext_nil]
    · have hi : (next + 1) % decs.length < decs.length :=
        Nat.mod_lt _ (Nat.pos_of_ne_zero hz)
      have hget : decs.get? ((next + 1) % decs.length)
          = some (decs.get ⟨(next + 1) % decs.length, hi⟩) :=
        List.get?_eq_some.mpr ⟨hi, rfl⟩
      rcases hs : effDecode (decs.get ⟨(next + 1) % decs.length, hi⟩) with ⟨o, rest⟩
      cases o with
      | fail e =>
        by_cases he : e = .eof
        · subst he
          have hstep := decodeNext_eof_step decs next _ hget (by rw [hs])
          rw [hstep] at h ⊢
          have hlt : (decs.eraseIdx ((next + 1) % decs.length)).length < n := by
            simp [List.length_eraseIdx, hi]
            omega
          exact ih _ hlt _ rfl next h
        · have hstep := decodeNext_err_step decs next _ e rest hget hs he
          rw [hstep] at h
          simp at h
      | ok r =>
        have hstep := decodeNext_ok_step decs next _ r rest hget hs
        rw [hstep] at h
        cases hp : r.payload <;> rw [hp] at h <;> simp [assertDataset] at h

/-! ### Claim theorems -/

/-- C1: if `Run` has already been invoked on an exchange instance
(`ex.inited = true`), a subsequent `Run` returns the "cannot run twice"
configuration error immediately: no initialization is attempted, no I/O
happens, and the instance is left unchanged. -/
theorem C1_run_once (ex : Exchange) (ctx : RunCtx) (exit : LoopExit)
    (closeErr : Option Err) (h : ex.inited = true) :
    Run ex ctx exit closeErr = ⟨ex, some .cannotRunTwice, false⟩ := by
  simp [Run, h]

/-- Witness for C1 at a concrete already-run instance. -/
theorem C1_run_once_witness :
    (Exchange.mk "u" .gather 0 true).inited = true ∧
    Run (Exchange.mk "u" .gather 0 true) (RunCtx.mk none [] "" "") .clean none
      = ⟨Exchange.mk "u" .gather 0 true, some .cannotRunTwice, false⟩ :=
  ⟨rfl, C1_run_once _ _ _ _ rfl⟩

/-- C9: the run-once flag is set before initialization is attempted and never
reset, so after a first `Run` with any outcome whatsoever — including an
initialization failure or a missing-distributer error — the instance is
marked as run and every later `Run` returns the cannot-run-twice error. -/
theorem C9_inited_sticky (ex : Exchange) (ctx ctx2 : RunCtx) (exit exit2 : LoopExit)
    (ce ce2 : Option Err) (h : ex.inited = false) :
    (Run ex ctx exit ce).ex.inited = true ∧
    Run (Run ex ctx exit ce).ex ctx2 exit2 ce2
      = ⟨(Run ex ctx exit ce).ex, some .cannotRunTwice, false⟩ := by
  have h1 : (Run ex ctx exit ce).ex.inited = true := by
    simp only [Run, h, Bool.false_eq_true, if_false]
    cases hi : initEx ctx ex.ty with
    | error e => simp
    | ok st => cases hl : loopErr exit <;> simp
  refine ⟨h1, ?_⟩
  generalize hy : (Run ex ctx exit ce).ex = y at h1 ⊢
  simp [Run, h1]

/-- Witness for C9: a first `Run` that fails with the missing-distributer
configuration error still marks the instance, and the second `Run` returns
the cannot-run-twice error. -/
theorem C9_inited_sticky_witness :
    (Exchange.mk "u" .scatter 0 false).inited = false ∧
    ((Run (Exchange.mk "u" .scatter 0 false) (RunCtx.mk none [] "" "") .clean none).ex.inited = true ∧
      Run (Run (Exchange.mk "u" .scatter 0 false) (RunCtx.mk none [] "" "") .clean none).ex
          (RunCtx.mk none [] "" "") .clean none
        = ⟨(Run (Exchange.mk "u" .scatter 0 false) (RunCtx.mk none [] "" "") .clean none).ex,
           some .cannotRunTwice, false⟩) :=
  ⟨rfl, C9_inited_sticky _ _ _ _ _ _ _ rfl⟩

/-- C5 counterexample, at a realizable input: on the two-node view
`["a", "b"]` with local master node "a", a gather init records the remote
stream to "b" in the closer list alongside the always-nil-closing
short-circuit; when the environment fails the close of that remote stream,
the deferred `Close` returns that error, and a run whose context finishes
with cancellation returns it instead of nil — so "Run returns nil on
cancellation" is false as stated. -/
theorem C5_cancel_counterexample :
    initEx (RunCtx.mk (some (fun _ => none)) ["a", "b"] "a" "a") .gather
      = .ok ⟨[.sc, .remote "b"], [.sc], [.sc, .remote "b"], ["a"],
             [("a", .sc)], true⟩ ∧
    closeAll (closeResults [Endpoint.sc, Endpoint.remote "b"]
        (fun _ => some (.msg "close failed")))
      = some (.msg "close failed") ∧
    (Run (Exchange.mk "u" .gather 0 false)
        (RunCtx.mk (some (fun _ => none)) ["a", "b"] "a" "a")
        (.ctxDone .canceled)
        (closeAll (closeResults [Endpoint.sc, Endpoint.remote "b"]
          (fun _ => some (.msg "close failed"))))).err
      = some (.msg "close failed") := by
  refine ⟨rfl, by decide, by decide⟩

/-- C5 (amended): cancellation is not surfaced as an error — when the context
finishes with cancellation the loop contributes no error and `Run` returns
exactly the deferred `Close` result (nil whenever `Close` succeeds); any
other context error (e.g. deadline exceeded) is returned unchanged. -/
theorem C5_cancel_amended (ex : Exchange) (ctx : RunCtx) (closeErr : Option Err)
    (h : ex.inited = false) (hinit : exInitOk (initEx ctx ex.ty) = true) :
    (Run ex ctx (.ctxDone .canceled) closeErr).err = closeErr ∧
    (∀ e : Err, e ≠ .canceled → (Run ex ctx (.ctxDone e) closeErr).err = some e) := by
  cases hi : initEx ctx ex.ty with
  | error e => rw [hi] at hinit; simp [exInitOk] at hinit
  | ok st =>
    constructor
    · simp [Run, h, hi, loopErr]
    · intro e he
      simp [Run, h, hi, loopErr, he]

/-- Witness for the amended C5 at a concrete one-node exchange. -/
theorem C5_cancel_amended_witness :
    ((Exchange.mk "u" .gather 0 false).inited = false ∧
      exInitOk (initEx (RunCtx.mk (some (fun _ => none)) ["a"] "a" "a")
        (Exchange.mk "u" .gather 0 false).ty) = true) ∧
    ((Run (Exchange.mk "u" .gather 0 false)
        (RunCtx.mk (some (fun _ => none)) ["a"] "a" "a")
        (.ctxDone .canceled) none).err = none ∧
      (∀ e : Err, e ≠ .canceled →
        (Run (Exchange.mk "u" .gather 0 false)
          (RunCtx.mk (some (fun _ => none)) ["a"] "a" "a")
          (.ctxDone e) none).err = some e)) :=
  ⟨⟨rfl, by decide⟩, C5_cancel_amended _ _ _ rfl (by decide)⟩

/-- C6: `encodeAll` (used for gather, broadcast and every EOF broadcast)
encodes the envelope on every encoder in list order — after a failure the
loop still reaches the remaining encoders — and the returned error is the
last non-nil per-encoder error. -/
theorem C6_encodeAll_fanout (encs : List EncSt) (r : Req) :
    (encodeAll encs r).1 = encs.map (fun enc => { enc with sent := enc.sent ++ [r] }) ∧
    (encodeAll encs r).2 = lastNonNil (encs.map encResult) := by
  unfold encodeAll
  rw [encodeAllGo_spec]
  refine ⟨rfl, ?_⟩
  cases h : lastNonNil (encs.map encResult) <;> rfl

/-- C8: `Close` closes every recorded closer and the last non-nil close error
wins; `Run` returns the `Close` error exactly when no earlier error occurred
(loop errors and initialization errors take precedence). -/
theorem C8_close_error_policy (rs : List (Option Err)) (ex : Exchange) (ctx : RunCtx)
    (exit : LoopExit) (h : ex.inited = false)
    (hinit : exInitOk (initEx ctx ex.ty) = true) :
    closeAll rs = lastNonNil rs ∧
    (∀ e, loopErr exit = some e → (Run ex ctx exit (closeAll rs)).err = some e) ∧
    (loopErr exit = none → (Run ex ctx exit (closeAll rs)).err = closeAll rs) ∧
    (∀ (ctx2 : RunCtx) (e2 : Err), initEx ctx2 ex.ty = .error e2 →
      (Run ex ctx2 exit (closeAll rs)).err = some e2) := by
  cases hi : initEx ctx ex.ty with
  | error e => rw [hi] at hinit; simp [exInitOk] at hinit
  | ok st =>
    refine ⟨closeAll_lastNonNil rs, ?_, ?_, ?_⟩
    · intro e he
      simp [Run, h, hi, he]
    · intro he
      simp [Run, h, hi, he]
    · intro ctx2 e2 hi2
      simp [Run, h, hi2]

/-- Witness for C8: two failing closers — the later error wins — and a clean
run returns exactly that `Close` error. -/
theorem C8_close_error_policy_witness :
    ((Exchange.mk "u" .gather 0 false).inited = false ∧
      exInitOk (initEx (RunCtx.mk (some (fun _ => none)) ["a"] "a" "a")
        (Exchange.mk "u" .gather 0 false).ty) = true) ∧
    (closeAll [some (.msg "e1"), none, some (.msg "e2"), none]
        = lastNonNil [some (.msg "e1"), none, some (.msg "e2"), none] ∧
      (∀ e, loopErr .clean = some e →
        (Run (Exchange.mk "u" .gather 0 false)
          (RunCtx.mk (some (fun _ => none)) ["a"] "a" "a") .clean
          (closeAll [some (.msg "e1"), none, some (.msg "e2"), none])).err = some e) ∧
      (loopErr .clean = none →
        (Run (Exchange.mk "u" .gather 0 false)
          (RunCtx.mk (some (fun _ => none)) ["a"] "a" "a") .clean
          (closeAll [some (.msg "e1"), none, some (.msg "e2"), none])).err
          = closeAll [some (.msg "e1"), none, some (.msg "e2"), none]) ∧
      (∀ (ctx2 : RunCtx) (e2 : Err),
        initEx ctx2 (Exchange.mk "u" .gather 0 false).ty = .error e2 →
        (Run (Exchange.mk "u" .gather 0 false) ctx2 .clean
          (closeAll [some (.msg "e1"), none, some (.msg "e2"), none])).err = some e2)) :=
  ⟨⟨rfl, by decide⟩, C8_close_error_policy _ _ _ _ rfl (by decide)⟩

/-- C7: initialization computes the destination set as the master node alone
for gather and all nodes otherwise (witnessed by the hash-ring contents), a
short-circuit is created exactly when the local node is a destination, and
the decoder list is built exactly in that case — a non-destination node ends
initialization with an empty decoder list, on which the receive path
(`decodeNext`) immediately observes EOF. -/
theorem C7_init_destinations (ctx : RunCtx) (ty : ExchangeType)
    (connect : String → Option Err) (hdist : ctx.dist = some connect)
    (hconn : ∀ n, connect n = none) :
    ∃ st, initEx ctx ty = .ok st ∧
      st.ring = (if ty = .gather then [ctx.masterNode] else ctx.allNodes) ∧
      (st.scCreated = true ↔
        ctx.thisNode ∈ (if ty = .gather then [ctx.masterNode] else ctx.allNodes)) ∧
      (ctx.thisNode ∉ (if ty = .gather then [ctx.masterNode] else ctx.allNodes) →
        st.decs = [] ∧ ∀ k, decodeNext [] k = (.eof, [], k)) ∧
      (ctx.thisNode ∈ (if ty = .gather then [ctx.masterNode] else ctx.allNodes) →
        st.decs.length = ctx.allNodes.length) := by
  obtain ⟨st1, cm1, heq1, hring1, hsc1, hdecs1⟩ :=
    initLoop1_spec connect ctx.thisNode hconn
      (if ty = .gather then [ctx.masterNode] else ctx.allNodes)
      ⟨[], [], [], [], [], false⟩ []
  simp only [initEx, hdist, heq1]
  simp only [List.nil_append] at hring1
  by_cases hmem : ctx.thisNode ∈ (if ty = .gather then [ctx.masterNode] else ctx.allNodes)
  · have hsc : st1.scCreated = true := by rw [hsc1]; simp [hmem]
    rw [hsc]
    simp only [if_true]
    obtain ⟨st2, heq2, hlen2, hring2, hsc2⟩ :=
      initLoop2_spec connect ctx.thisNode hconn ctx.allNodes cm1 st1
    refine ⟨st2, heq2, ?_, ?_, ?_, ?_⟩
    · rw [hring2, hring1]
    · rw [hsc2, hsc]; simp [hmem]
    · intro hc; exact absurd hmem hc
    · intro _; rw [hlen2, hdecs1]; simp
  · have hsc : st1.scCreated = false := by rw [hsc1]; simp [hmem]
    rw [hsc]
    simp only [Bool.false_eq_true, if_false]
    refine ⟨st1, rfl, hring1, ?_, ?_, ?_⟩
    · rw [hsc]; simp [hmem]
    · intro _; exact ⟨hdecs1, fun k => decodeNext_nil k⟩
    · intro hc; exact absurd hc hmem

/-- Witness for C7: a gather exchange on a non-master node ends with an empty
decoder list. -/
theorem C7_init_destinations_witness :
    ((RunCtx.mk (some (fun _ => none)) ["a", "b"] "b" "a").dist
        = some (fun _ => none)) ∧
    (∃ st, initEx (RunCtx.mk (some (fun _ => none)) ["a", "b"] "b" "a") .gather = .ok st ∧
      st.ring = (if ExchangeType.gather = .gather
        then [(RunCtx.mk (some (fun _ => none)) ["a", "b"] "b" "a").masterNode]
        else (RunCtx.mk (some (fun _ => none)) ["a", "b"] "b" "a").allNodes) ∧
      ((st.scCreated = true ↔
        (RunCtx.mk (some (fun _ => none)) ["a", "b"] "b" "a").thisNode ∈
          (if ExchangeType.gather = .gather
            then [(RunCtx.mk (some (fun _ => none)) ["a", "b"] "b" "a").masterNode]
            else (RunCtx.mk (some (fun _ => none)) ["a", "b"] "b" "a").allNodes))) ∧
      ((RunCtx.mk (some (fun _ => none)) ["a", "b"] "b" "a").thisNode ∉
          (if ExchangeType.gather = .gather
            then [(RunCtx.mk (some (fun _ => none)) ["a", "b"] "b" "a").masterNode]
            else (RunCtx.mk (some (fun _ => none)) ["a", "b"] "b" "a").allNodes) →
        st.decs = [] ∧ ∀ k, decodeNext [] k = (.eof, [], k)) ∧
      ((RunCtx.mk (some (fun _ => none)) ["a", "b"] "b" "a").thisNode ∈
          (if ExchangeType.gather = .gather
            then [(RunCtx.mk (some (fun _ => none)) ["a", "b"] "b" "a").masterNode]
            else (RunCtx.mk (some (fun _ => none)) ["a", "b"] "b" "a").allNodes) →
        st.decs.length
          = (RunCtx.mk (some (fun _ => none)) ["a", "b"] "b" "a").allNodes.length)) :=
  ⟨rfl, C7_init_destinations _ _ (fun _ => none) rfl (fun _ => rfl)⟩

/-- C2: for a scatter exchange with a nonempty encoder list and cursor 0, the
round-robin cursor is pre-incremented modulo N on each send, so the j-th
batch (1-based) goes to encoder index j mod N; the first transmission goes to
encoder index 1 when N ≥ 2 and to the sole encoder (index 0) when N = 1;
consequently every encoder receives ⌊B/N⌋ or ⌈B/N⌉ of the B batches; and a
scatter send with zero encoders fails with the closed-pipe error. -/
theorem C2_scatter_round_robin (encs : List EncSt) (reqs : List Req)
    (hne : encs ≠ []) (hall : ∀ enc ∈ encs, ∀ x ∈ enc.behavior, x = none) :
    (runScatter ⟨encs, 0⟩ reqs).2.1
        = (List.range reqs.length).map (fun j => (j + 1) % encs.length) ∧
    (2 ≤ encs.length → reqs ≠ [] →
      ((runScatter ⟨encs, 0⟩ reqs).2.1).head? = some 1) ∧
    (encs.length = 1 → reqs ≠ [] →
      ((runScatter ⟨encs, 0⟩ reqs).2.1).head? = some 0) ∧
    (∀ k, k < encs.length →
      ((runScatter ⟨encs, 0⟩ reqs).2.1).count k = reqs.length / encs.length ∨
      ((runScatter ⟨encs, 0⟩ reqs).2.1).count k
        = (reqs.length + (encs.length - 1)) / encs.length) ∧
    (∀ (r : Req) (rs : List Req),
      (runScatter ⟨[], 0⟩ (r :: rs)).2.2 = some .closedPipe) := by
  have hpos : 0 < encs.length :=
    Nat.pos_of_ne_zero (fun hh => hne (List.length_eq_zero.mp hh))
  obtain ⟨h1, _⟩ := runScatter_spec reqs encs 0 hne hall
  have h1' : (runScatter ⟨encs, 0⟩ reqs).2.1
      = (List.range reqs.length).map (fun j => (j + 1) % encs.length) := by
    rw [h1]
    apply List.map_congr_left
    intro j _
    simp
  refine ⟨h1', ?_, ?_, ?_, ?_⟩
  · intro hN hreqs
    rw [h1']
    cases reqs with
    | nil => exact absurd rfl hreqs
    | cons a as =>
      simp only [List.length_cons]
      rw [List.range_succ_eq_map, List.map_cons]
      simp only [List.head?_cons]
      congr 1
      exact Nat.mod_eq_of_lt (by omega)
  · intro hN hreqs
    rw [h1']
    cases reqs with
    | nil => exact absurd rfl hreqs
    | cons a as =>
      simp only [List.length_cons]
      rw [List.range_succ_eq_map, List.map_cons]
      simp [hN]
  · intro k hk
    rw [h1']
    exact count_floor_ceil encs.length k reqs.length hpos hk
  · intro r rs
    simp [runScatter, encodeNext]

/-- Witness for C2: three always-succeeding encoders and four batches; the
recipient sequence evaluates to 1, 2, 0, 1. -/
theorem C2_scatter_round_robin_witness :
    (w2encs ≠ [] ∧ (∀ enc ∈ w2encs, ∀ x ∈ enc.behavior, x = none)) ∧
    ((runScatter ⟨w2encs, 0⟩ w2reqs).2.1
        = (List.range w2reqs.length).map (fun j => (j + 1) % w2encs.length) ∧
      (2 ≤ w2encs.length → w2reqs ≠ [] →
        ((runScatter ⟨w2encs, 0⟩ w2reqs).2.1).head? = some 1) ∧
      (w2encs.length = 1 → w2reqs ≠ [] →
        ((runScatter ⟨w2encs, 0⟩ w2reqs).2.1).head? = some 0) ∧
      (∀ k, k < w2encs.length →
        ((runScatter ⟨w2encs, 0⟩ w2reqs).2.1).count k
            = w2reqs.length / w2encs.length ∨
        ((runScatter ⟨w2encs, 0⟩ w2reqs).2.1).count k
            = (w2reqs.length + (w2encs.length - 1)) / w2encs.length) ∧
      (∀ (r : Req) (rs : List Req),
        (runScatter ⟨[], 0⟩ (r :: rs)).2.2 = some .closedPipe)) :=
  ⟨⟨by decide, by decide⟩, C2_scatter_round_robin w2encs w2reqs (by decide) (by decide)⟩

/-- C3: for a partition send over a dataset, each row is routed by its
key-column string (hash ring, then encoders-by-address map), and the
single-row slices are appended so that every destination's pending dataset is
exactly the routed rows in their original input order; with all keys routable
and encoders healthy, each pending dataset is encoded exactly once (the
grouped keys are distinct and the encode trace equals the groups); if any key
fails to route, an error is returned and nothing is sent. -/
theorem C3_partition_grouping (route : String → Except Err Endpoint)
    (encRes : Endpoint → Dataset → Option Err) (col : Nat) (data : Dataset) :
    ((∀ row ∈ data, routeOkB route (row.getD col "") = true) →
      (∀ e d, encRes e d = none) →
      ∃ groups,
        encodePartition route encRes col (.dataset data) = (none, groups) ∧
        (keysOf groups).Nodup ∧
        ∀ e : Endpoint, lookupG e groups
          = (if (specGroup route e (keyedRows col data)).isEmpty then none
             else some (specGroup route e (keyedRows col data)))) ∧
    ((∃ row ∈ data, routeOkB route (row.getD col "") = false) →
      ∃ err, encodePartition route encRes col (.dataset data) = (some err, [])) := by
  constructor
  · intro hok hsend
    have hok' : ∀ kr ∈ keyedRows col data, routeOkB route kr.1 = true := by
      intro kr hm
      simp only [keyedRows, List.mem_map] at hm
      obtain ⟨row, hrow, rfl⟩ := hm
      exact hok row hrow
    have hrow' : ∀ kr ∈ keyedRows col data, kr.2 ≠ ([] : Dataset) := by
      intro kr hm
      simp only [keyedRows, List.mem_map] at hm
      obtain ⟨row, hrow, rfl⟩ := hm
      simp
    obtain ⟨g, hg, hlook⟩ := groupRows_lookup route (keyedRows col data) hok' hrow' []
    refine ⟨g, ?_, ?_, ?_⟩
    · simp only [encodePartition, hg]
      exact sendGroups_ok encRes hsend g
    · exact groupRows_keys_nodup route (keyedRows col data) [] g (by simp [keysOf]) hg
    · intro e
      rw [hlook e]
      rfl
  · intro hbad
    obtain ⟨row, hrow, hb⟩ := hbad
    obtain ⟨err, herr⟩ := groupRows_err route (keyedRows col data) []
      ⟨(row.getD col "", [row]), List.mem_map.mpr ⟨row, hrow, rfl⟩, hb⟩
    exact ⟨err, by simp [encodePartition, herr]⟩

/-- Witness for C3: a concrete ring and address map over three rows with keys
k1, k2, k1 (all routable), and a dataset with the unroutable key k3. -/
theorem C3_partition_grouping_witness :
    ((∀ row ∈ w3data,
        routeOkB (getPartitionEncoder w3ring w3map) (row.getD 0 "") = true) ∧
      (∃ groups,
        encodePartition (getPartitionEncoder w3ring w3map) (fun _ _ => none) 0
            (.dataset w3data) = (none, groups) ∧
        (keysOf groups).Nodup ∧
        ∀ e : Endpoint, lookupG e groups
          = (if (specGroup (getPartitionEncoder w3ring w3map) e
                  (keyedRows 0 w3data)).isEmpty then none
             else some (specGroup (getPartitionEncoder w3ring w3map) e
                  (keyedRows 0 w3data))))) ∧
    ((∃ row ∈ w3badData,
        routeOkB (getPartitionEncoder w3ring w3map) (row.getD 0 "") = false) ∧
      ∃ err, encodePartition (getPartitionEncoder w3ring w3map) (fun _ _ => none) 0
          (.dataset w3badData) = (some err, [])) :=
  ⟨⟨by decide,
    (C3_partition_grouping (getPartitionEncoder w3ring w3map) (fun _ _ => none) 0
        w3data).1 (by decide) (fun e d => rfl)⟩,
   ⟨by decide,
    (C3_partition_grouping (getPartitionEncoder w3ring w3map) (fun _ _ => none) 0
        w3badData).2 (by decide)⟩⟩

/-- C4: `decodeNext` returns EOF on an empty decoder set; decoders translate
an EOF-sentinel envelope into the canonical EOF; a clean EOF from the chosen
decoder (exhausted stream, transport EOF, or EOF-sentinel envelope) removes
that decoder and retries, so EOF reaches the caller only once the decoder set
is empty; any other decoder error is returned immediately; on success the
cursor is advanced to the delivering decoder and the unwrapped payload is
returned. -/
theorem C4_decodeNext_protocol (decs : List (List RawOutcome)) (next : Nat) :
    (decodeNext [] next = (.eof, [], next)) ∧
    (∀ r : Req, isEOFError r = true → dbgDecode (.ok r) = .fail .eof) ∧
    (∀ s, decs.get? ((next + 1) % decs.length) = some s →
      (effDecode s).1 = .fail .eof →
      decodeNext decs next
        = decodeNext (decs.eraseIdx ((next + 1) % decs.length)) next) ∧
    (∀ s e rest, decs.get? ((next + 1) % decs.length) = some s →
      effDecode s = (.fail e, rest) → e ≠ .eof →
      decodeNext decs next
        = (.err e, decs.set ((next + 1) % decs.length) rest, next)) ∧
    (∀ s r rest d, decs.get? ((next + 1) % decs.length) = some s →
      effDecode s = (.ok r, rest) → r.payload = .dataset d →
      decodeNext decs next
        = (.ok d, decs.set ((next + 1) % decs.length) rest,
           (next + 1) % decs.length)) ∧
    ((decodeNext decs next).1 = .eof → (decodeNext decs next).2.1 = []) := by
  refine ⟨decodeNext_nil next, ?_, ?_, ?_, ?_, ?_⟩
  · intro r h
    simp [dbgDecode, h]
  · intro s hget heof
    exact decodeNext_eof_step decs next s hget heof
  · intro s e rest hget heff hne
    exact decodeNext_err_step decs next s e rest hget heff hne
  · intro s r rest d hget heff hpd
    rw [decodeNext_ok_step decs next s r rest hget heff, hpd]
    rfl
  · exact decodeNext_eof_empty decs.length decs rfl next

/-- Witness for C4 at a one-decoder set delivering a dataset envelope. -/
theorem C4_decodeNext_protocol_witness :
    ([[RawOutcome.ok ⟨.dataset [["v"]]⟩]].get?
        ((0 + 1) % [[RawOutcome.ok ⟨.dataset [["v"]]⟩]].length)
        = some [RawOutcome.ok ⟨.dataset [["v"]]⟩] ∧
      effDecode [RawOutcome.ok ⟨.dataset [["v"]]⟩]
        = (.ok ⟨.dataset [["v"]]⟩, []) ∧
      (Req.mk (.dataset [["v"]])).payload = .dataset [["v"]]) ∧
    decodeNext [[RawOutcome.ok ⟨.dataset [["v"]]⟩]] 0
      = (.ok [["v"]],
         [[RawOutcome.ok ⟨.dataset [["v"]]⟩]].set
           ((0 + 1) % [[RawOutcome.ok ⟨.dataset [["v"]]⟩]].length) [],
         (0 + 1) % [[RawOutcome.ok ⟨.dataset [["v"]]⟩]].length) :=
  ⟨⟨by decide, by decide, rfl⟩,
   (C4_decodeNext_protocol [[RawOutcome.ok ⟨.dataset [["v"]]⟩]] 0).2.2.2.2.1
     [RawOutcome.ok ⟨.dataset [["v"]]⟩] ⟨.dataset [["v"]]⟩ [] [["v"]]
     (by decide) (by decide) rfl⟩

/-- C10: `decodeNext` is not total over well-formed envelopes — when the
chosen decoder successfully yields an envelope whose payload is neither a
`Dataset` nor the EOF-sentinel error (so the translation to EOF did not
fire), the unconditional `req.Payload.(Dataset)` type assertion panics
instead of returning an error. -/
theorem C10_payload_assert_panics (decs : List (List RawOutcome)) (next : Nat)
    (s : List RawOutcome) (r : Req) (rest : List RawOutcome)
    (hget : decs.get? ((next + 1) % decs.length) = some s)
    (heff : effDecode s = (.ok r, rest))
    (hnd : ∀ d : Dataset, r.payload ≠ .dataset d) :
    isEOFError r = false ∧ (decodeNext decs next).1 = .panic := by
  constructor
  · cases s with
    | nil => simp [effDecode] at heff
    | cons o s' =>
      simp only [effDecode] at heff
      obtain ⟨h1, h2⟩ := Prod.mk.inj heff
      cases o with
      | fail e => simp [dbgDecode] at h1
      | ok r0 =>
        by_cases he : isEOFError r0
        · simp [dbgDecode, he] at h1
        · simp [dbgDecode, he] at h1
          rw [← h1]
          exact Bool.eq_false_iff.mpr he
  · rw [decodeNext_ok_step decs next s r rest hget heff]
    cases hp : r.payload with
    | dataset d => exact absurd hp (hnd d)
    | errVal m => simp [assertDataset, hp]
    | other t => simp [assertDataset, hp]

/-- Witness for C10: a decoder delivering an error-valued envelope whose
message is not the EOF message makes `decodeNext` panic. -/
theorem C10_payload_assert_panics_witness :
    ([[RawOutcome.ok ⟨.errVal "boom"⟩]].get?
        ((0 + 1) % [[RawOutcome.ok ⟨.errVal "boom"⟩]].length)
        = some [RawOutcome.ok ⟨.errVal "boom"⟩] ∧
      effDecode [RawOutcome.ok ⟨.errVal "boom"⟩] = (.ok ⟨.errVal "boom"⟩, [])) ∧
    (isEOFError ⟨.errVal "boom"⟩ = false ∧
      (decodeNext [[RawOutcome.ok ⟨.errVal "boom"⟩]] 0).1 = .panic) :=
  ⟨⟨by decide, by decide⟩,
   C10_payload_assert_panics [[RawOutcome.ok ⟨.errVal "boom"⟩]] 0
     [RawOutcome.ok ⟨.errVal "boom"⟩] ⟨.errVal "boom"⟩ []
     (by decide) (by decide) (fun d h => Payload.noConfusion h)⟩

end Ep
